import Mathlib

/-!
Verification of the `sync` crate (Merkle directory indexing, structural diff,
and multi-tag cache reconciliation).

The development shallowly embeds the two source files
`src/sync/src/sync/merkle.rs` and `src/sync/src/sync/mod.rs`:

* machine bytes (`u8`) are modelled as `Nat` (all concrete values stay < 256);
  a 20-byte `ObjectHash` (`[u8; 20]`) is a `List Nat`;
* `SHA-1` is treated as an opaque digest parameter `f : List Nat → ObjectHash`
  (the spec fixes only the message fed to the digest, not the digest itself);
  the incremental `Sha1::update` calls are modelled as byte-string
  concatenation of the hasher's accumulated message;
* file-backed state (`DiskSet` files, the rev_tags shards, the persisted
  `merkle_tree` JSONL file) is modelled by the pure contents of those files;
  a rev_tags shard is a JSON object, that is an association list from the
  40-char hex hash to a list of tag strings, and sharding by the first two
  hex characters is semantics-preserving because every operation touches only
  the shard of its own hash and only its own key inside that shard;
* Rust panics (`unwrap` on `None`, failed assertions) are modelled by
  `Option`: `none` is a panic, a normal return is `some`;
* the two functions whose recursion is not structural in the nested
  `Object` tree (the diff engine, which recurses through a path-keyed map
  of the old children, and the JSONL reader, which recurses through the
  line stream) carry an explicit `Nat` fuel that strictly decreases on
  every nested call; the canonical entry points instantiate the fuel with
  node-count bounds proved sufficient (`objDiffF_isSome`,
  `diffChildren_isSome`, `parseKids_roundtrip`), so the fuel never runs out
  on the executions the theorems talk about.
-/

namespace ContinueSync

/-- A byte of an object hash (`u8` in the source). -/
abbrev Byte := Nat

/-- `type ObjectHash = [u8; 20]` (merkle.rs): a 20-byte SHA-1 digest. -/
abbrev ObjectHash := List Byte

/-- One lower-case hex digit (0..15 mapped to `0`..`9`, `a`..`f`). -/
def hexDigitChar (n : Nat) : Char :=
  if n < 10 then Char.ofNat (48 + n) else Char.ofNat (87 + n)

/-- `hash_string` (merkle.rs): render each byte as two lower-case hex
    characters (`format "{byte:02x}"`) and concatenate. -/
def hashString (h : ObjectHash) : String :=
  String.mk (h.flatMap (fun b => [hexDigitChar (b / 16), hexDigitChar (b % 16)]))

/-! ## DiskSet (mod.rs, `struct DiskSet`)

The backing file holds `N * 20` raw bytes; we model it as the list of its
20-byte items, in file order. -/

namespace DiskSet

/-- `DiskSet::contains`: linear scan from offset 0, 20 bytes at a time. -/
def containsItem (file : List ObjectHash) (item : ObjectHash) : Bool :=
  file.any (fun y => y == item)

/-- `DiskSet::add`: if not already present, append at end. -/
def addItem (file : List ObjectHash) (item : ObjectHash) : List ObjectHash :=
  if containsItem file item then file else file ++ [item]

/-- `DiskSet::remove`: scan for the first match; on a hit at slot `i`, copy
    the file's last 20-byte slot into slot `i` and truncate the file by one
    slot (swap-delete). On a miss the file is unchanged. -/
def removeItem (file : List ObjectHash) (item : ObjectHash) : List ObjectHash :=
  match file.findIdx? (fun y => y == item) with
  | none => file
  | some i => (file.set i (file.getLastD [])).dropLast

end DiskSet

/-! ## The object model (merkle.rs: `Tree`, `Blob`, `Object`, `ObjDescription`) -/

/-- `enum Object` (merkle.rs): a `Tree` (directory node, with its ordered
    children) or a `Blob` (file node). Field order follows the Rust structs
    `Tree { parent, children, hash, path }` and `Blob { parent, hash, path }`. -/
inductive Obj where
  | tree : Option ObjectHash → List Obj → ObjectHash → String → Obj
  | blob : Option ObjectHash → ObjectHash → String → Obj
deriving Repr

/-- `struct Tree` (merkle.rs): the dedicated directory-node type, isomorphic
    to the `Obj.tree` constructor's data. -/
structure TreeS where
  parent : Option ObjectHash
  children : List Obj
  hash : ObjectHash
  path : String
deriving Repr

/-- `impl From<Tree> for Object`. -/
def TreeS.toObj (t : TreeS) : Obj :=
  .tree t.parent t.children t.hash t.path

/-- `Object::hash`. -/
def Obj.hashF : Obj → ObjectHash
  | .tree _ _ h _ => h
  | .blob _ h _ => h

/-- `Object::path`. -/
def Obj.pathF : Obj → String
  | .tree _ _ _ p => p
  | .blob _ _ p => p

/-- `struct ObjDescription`: the flattened view `{ hash, path, is_blob }`. -/
structure Descr where
  hash : ObjectHash
  path : String
  isBlob : Bool
deriving Repr, DecidableEq

/-- `Object::descr`. -/
def Obj.descr : Obj → Descr
  | .tree _ _ h p => ⟨h, p, false⟩
  | .blob _ h p => ⟨h, p, true⟩

/-- `Tree::descr`. -/
def TreeS.descr (t : TreeS) : Descr := ⟨t.hash, t.path, false⟩

/-! Number of nodes of an object's subtree (used only as recursion fuel for
    the diff engine and to size the JSONL serialization). -/
mutual
def Obj.size : Obj → Nat
  | .blob _ _ _ => 1
  | .tree _ cs _ _ => 1 + sizeList cs
def sizeList : List Obj → Nat
  | [] => 0
  | c :: cs => c.size + sizeList cs
end

/-! Pre-order flattening: `Tree::walk` visits the node itself and then each
    child recursively, and `Tree::all_obj_descriptions` pushes `obj.descr()`
    at every visit, so the result is one `ObjDescription` per node of the
    subtree, in pre-order. Extended to blobs the way `Object` is flattened
    at use sites (a lone blob contributes exactly its own description). -/
mutual
def Obj.allDescr : Obj → List Descr
  | .blob _ h p => [⟨h, p, true⟩]
  | .tree _ cs h p => ⟨h, p, false⟩ :: allDescrList cs
def allDescrList : List Obj → List Descr
  | [] => []
  | c :: cs => c.allDescr ++ allDescrList cs
end

/-- `Tree::all_obj_descriptions`. -/
def TreeS.allObjDescriptions (t : TreeS) : List Descr := t.toObj.allDescr

/-! ## The diff engine (merkle.rs: `Object::diff`, `Tree::diff_children`,
    free function `diff`)

`Tree::diff_children` collects old children into a
`HashMap<String, &Object>` keyed by path (`collect` keeps the last child
for a duplicated path), looks each new child up (removing the entry on a
hit), and finally iterates the unmatched leftovers. We model the map as an
association list in insertion order: `HashMap` iteration order is
unspecified, and no claim below depends on the leftover order, only on the
entries. -/

/-- Insert with overwrite at the first occurrence of the key (the behavior
    of `HashMap::insert` during `collect`). -/
def mapInsert : List (String × Obj) → String → Obj → List (String × Obj)
  | [], k, v => [(k, v)]
  | (k0, v0) :: rest, k, v =>
    if k0 = k then (k, v) :: rest else (k0, v0) :: mapInsert rest k v

/-- The `old_path_to_object` map: `self.children.iter().map(|c| (c.path(), c)).collect()`. -/
def pathMap (cs : List Obj) : List (String × Obj) :=
  cs.foldl (fun m c => mapInsert m c.pathF c) []

/-- `HashMap::get`-style lookup (first occurrence). -/
def mapFind : List (String × Obj) → String → Option Obj
  | [], _ => none
  | (k0, v0) :: rest, k => if k0 = k then some v0 else mapFind rest k

/-- `HashMap::remove`: drop the (first) entry with that key. -/
def mapErase : List (String × Obj) → String → List (String × Obj)
  | [], _ => []
  | (k0, v0) :: rest, k => if k0 = k then rest else (k0, v0) :: mapErase rest k

/-- The removal loop of `Tree::diff_children` over the unmatched old
    children: a leftover `Blob` contributes `remove.push(obj.descr())`, but a
    leftover `Tree` runs
    `tree.walk(&mut |_obj| remove.extend(tree.all_obj_descriptions()))`, that
    is it extends `remove` with the tree's full pre-order description list
    once per visited node of the subtree (the closure ignores its
    argument) — `n * n` entries for an `n`-node subtree. -/
def leftoverRemove (m : List (String × Obj)) : List Descr :=
  m.flatMap (fun kv =>
    match kv.2 with
    | .blob pr h p => [(Obj.blob pr h p).descr]
    | .tree pr cs h p =>
        ((Obj.tree pr cs h p).allDescr).flatMap
          (fun _ => (Obj.tree pr cs h p).allDescr))

/-- The matching loop of `Tree::diff_children` over the new children:
    on a path hit, recurse (`recur` is `Object::diff` at one less fuel) and
    remove the map entry; on a miss, flatten the whole new child into the
    additions. Returns the accumulated additions, removals, and the leftover
    map. `none` propagates a panic from the recursion (never hit at the
    canonical fuel). -/
def goNew (recur : Obj → Obj → Option (List Descr × List Descr)) :
    List (String × Obj) → List Obj →
    Option (List Descr × List Descr × List (String × Obj))
  | m, [] => some ([], [], m)
  | m, c :: cs =>
    match mapFind m c.pathF with
    | some oc => do
        let (a1, r1) ← recur oc c
        let (a2, r2, m2) ← goNew recur (mapErase m c.pathF) cs
        some (a1 ++ a2, r1 ++ r2, m2)
    | none => do
        let (a2, r2, m2) ← goNew recur m cs
        some (c.allDescr ++ a2, r2, m2)

/-- `Object::diff`, fuel-indexed (the fuel strictly decreases into each
    recursive call; `objDiff_isSome` below shows the canonical fuel never
    runs out, so the `none` branch is unreachable there). The four match
    arms follow the source: tree/tree recurses into children and wraps the
    two tree descriptions around the child results; blob/blob swaps the two
    descriptions; a type change flattens the entire tree side. -/
def objDiffF : Nat → Obj → Obj → Option (List Descr × List Descr)
  | 0, _, _ => none
  | f + 1, old, new =>
    if old.hashF = new.hashF then some ([], [])
    else
      match old, new with
      | .tree opr ocs oh opa, .tree npr ncs nh npa => do
          let (ca, cr, m) ← goNew (objDiffF f) (pathMap ocs) ncs
          some ((Obj.tree npr ncs nh npa).descr :: ca,
                (Obj.tree opr ocs oh opa).descr :: (cr ++ leftoverRemove m))
      | .blob opr oh opa, .blob npr nh npa =>
          some ([(Obj.blob npr nh npa).descr], [(Obj.blob opr oh opa).descr])
      | .blob opr oh opa, .tree npr ncs nh npa =>
          some ((Obj.tree npr ncs nh npa).allDescr, [(Obj.blob opr oh opa).descr])
      | .tree opr ocs oh opa, .blob npr nh npa =>
          some ([(Obj.blob npr nh npa).descr], (Obj.tree opr ocs oh opa).allDescr)

/-- `Tree::diff_children` at the canonical fuel. The `([], [])` fallback is
    unreachable (`diffChildren_isSome`). -/
def diffChildrenTop (ocs ncs : List Obj) : List Descr × List Descr :=
  match goNew (objDiffF (sizeList ocs + 1)) (pathMap ocs) ncs with
  | some (ca, cr, m) => (ca, cr ++ leftoverRemove m)
  | none => ([], [])

/-- The free function `diff(old_tree, new_tree)` (merkle.rs): equal root
    hashes short-circuit to empty lists; otherwise the two root descriptions
    are wrapped around the children diff. -/
def diffTrees (old new : TreeS) : List Descr × List Descr :=
  if old.hash = new.hash then ([], [])
  else
    let p := diffChildrenTop old.children new.children
    (new.descr :: p.1, old.descr :: p.2)

/-! ## Tree persistence (merkle.rs: `SerializeableNode`, `json_for_obj`,
    `obj_from_jsonl`, `Tree::persist`, `Tree::load`)

The JSONL file is modelled as the list of its lines, each line the
`SerializeableNode` it parses to, or `none` when the line is not valid JSON
for that shape (`serde_json::from_str(..).unwrap()` then panics).
`serde_json` round-trips `SerializeableNode` exactly, so nothing is lost by
modelling lines at the record level; each record is one line because
`serde_json::to_string` escapes control characters inside strings. -/

/-- `struct SerializeableNode`: `{ parent, children, hash, path }`, where
    `children` is `None` for a blob line and the list of child hashes for a
    tree line. -/
structure SNode where
  parent : Option ObjectHash
  children : Option (List ObjectHash)
  hash : ObjectHash
  path : String
deriving Repr

/-! Serialization (`Blob::json_for_obj`, `Tree::json_for_node`,
    `Tree::json_for_obj`): the node's own line followed by the recursive
    serialization of each child, in children order (pre-order). -/
mutual
def Obj.serialize : Obj → List SNode
  | .blob pr h p => [⟨pr, none, h, p⟩]
  | .tree pr cs h p => ⟨pr, some (cs.map Obj.hashF), h, p⟩ :: serializeList cs
def serializeList : List Obj → List SNode
  | [] => []
  | c :: cs => c.serialize ++ serializeList cs
end

/-- `Tree::persist` writes exactly `Tree::json_for_obj` for the root. -/
def TreeS.serialize (t : TreeS) : List SNode := t.toObj.serialize

/-- `Default` for `Tree`: `parent = None`, no children, an all-zero 20-byte
    hash, empty path. -/
def defaultTree : TreeS := ⟨none, [], List.replicate 20 0, ""⟩

/-- The child-reading loop of `obj_from_jsonl`: read one line per recorded
    child hash (`lines.next().unwrap()` panics when the file runs out, and
    `serde_json::from_str(..).unwrap()` panics on an unparsable line); a
    line with a `children` list recurses as a subtree, a line without one is
    a blob. `recur` is `obj_from_jsonl` with the child's first line already
    consumed. -/
def parseKids (recur : SNode → List (Option SNode) → Option (TreeS × List (Option SNode))) :
    Nat → List (Option SNode) → Option (List Obj × List (Option SNode))
  | 0, ls => some ([], ls)
  | _ + 1, [] => none
  | _ + 1, none :: _ => none
  | n + 1, some nd :: ls =>
    match nd.children with
    | some _ => do
        let (t, ls2) ← recur nd ls
        let (rest, ls3) ← parseKids recur n ls2
        some (t.toObj :: rest, ls3)
    | none => do
        let (rest, ls3) ← parseKids recur n ls
        some (Obj.blob nd.parent nd.hash nd.path :: rest, ls3)

/-- `Tree::obj_from_jsonl` with the first line already read: the root line's
    `children` list is unwrapped (`root_node.children.unwrap()` panics on a
    blob line), and one child subtree is read per recorded hash. -/
def parseTreeF : Nat → SNode → List (Option SNode) → Option (TreeS × List (Option SNode))
  | 0, _, _ => none
  | f + 1, nd, ls =>
    match nd.children with
    | none => none
    | some hs =>
        (parseKids (parseTreeF f) hs.length ls).map
          (fun p => (⟨nd.parent, p.1, nd.hash, nd.path⟩, p.2))

/-- `Tree::load(..).unwrap_or_default()` as called by `sync` (mod.rs):
    a missing file is an `Err` from `File::open` and defaults; an existing
    file is parsed by `obj_from_jsonl(lines, None)`, whose panics
    (`unwrap` of a missing line, of an unparsable line, or of an absent
    `children` field) are `none` — a panic is not an `Err`, so
    `unwrap_or_default` does not catch it. The parse fuel `ls.length + 1`
    bounds the recursion depth, which consumes at least one line per level. -/
def loadTree : Option (List (Option SNode)) → Option TreeS
  | none => some defaultTree
  | some [] => none
  | some (none :: _) => none
  | some (some nd :: ls) => (parseTreeF (ls.length + 1) nd ls).map Prod.fst

/-! ## IndexCache and the sync orchestrator (mod.rs)

The persistent cache state of one provider/tag pair: the global DiskSet
file, the tag DiskSet file, and the rev_tags store. A rev_tags shard file
is a JSON object, so we model the store as an association list from the
40-char hex hash to its tag list; every operation reads and rewrites only
the key of its own hash (`read_rev_tags` / `write_rev_tags` move the whole
shard, but modify only that key), so the flat map is faithful. -/

/-- `struct Tag { dir, branch, provider_id }`. -/
structure TagR where
  dir : String
  branch : String
  providerId : String
deriving Repr, DecidableEq

/-- `Tag::to_string`: `"{dir}::{branch}::{provider_id}"`. -/
def TagR.tagStr (t : TagR) : String :=
  t.dir ++ "::" ++ t.branch ++ "::" ++ t.providerId

/-- The mutable on-disk state the sync orchestrator owns. -/
structure CacheSt where
  globalCache : List ObjectHash
  tagCache : List ObjectHash
  revTags : List (String × List String)
deriving Repr, DecidableEq

/-- First-occurrence lookup in the rev_tags map (`HashMap::get` /
    `contains_key`). -/
def rtLookup : List (String × List String) → String → Option (List String)
  | [], _ => none
  | (k0, v0) :: rest, k => if k0 = k then some v0 else rtLookup rest k

/-- Replace the value at the first occurrence of the key
    (`HashMap::get_mut` then in-place mutation). -/
def rtSetFirst : List (String × List String) → String → List String →
    List (String × List String)
  | [], _, _ => []
  | (k0, v0) :: rest, k, v =>
    if k0 = k then (k, v) :: rest else (k0, v0) :: rtSetFirst rest k v

/-- `HashMap::remove`: drop the first entry with the key. -/
def rtRemoveKey : List (String × List String) → String →
    List (String × List String)
  | [], _ => []
  | (k0, v0) :: rest, k => if k0 = k then rest else (k0, v0) :: rtRemoveKey rest k

namespace IndexCache

/-- `IndexCache::add_global`: add the hash to both DiskSets, then push the
    tag string onto `rev_tags[hex(hash)]` (inserting an empty list first if
    the key is absent) — unconditionally, with no duplicate check. -/
def addGlobal (tag : TagR) (st : CacheSt) (item : Descr) : CacheSt :=
  let k := hashString item.hash
  { globalCache := DiskSet.addItem st.globalCache item.hash
    tagCache := DiskSet.addItem st.tagCache item.hash
    revTags :=
      match rtLookup st.revTags k with
      | some l => rtSetFirst st.revTags k (l ++ [tag.tagStr])
      | none => st.revTags ++ [(k, [tag.tagStr])] }

/-- `IndexCache::global_remove`: remove the hash from both DiskSets and
    delete the whole `hex(hash)` key from rev_tags. -/
def globalRemove (st : CacheSt) (item : Descr) : CacheSt :=
  { globalCache := DiskSet.removeItem st.globalCache item.hash
    tagCache := DiskSet.removeItem st.tagCache item.hash
    revTags := rtRemoveKey st.revTags (hashString item.hash) }

/-- `IndexCache::local_remove`: remove the hash from the tag DiskSet only;
    if rev_tags holds the key, find the position of the tag string with
    `position(..).unwrap()` — a panic (`none`) when the tag string is not in
    the list — remove that element, and drop the key when the list becomes
    empty. -/
def localRemove (tag : TagR) (st : CacheSt) (item : Descr) : Option CacheSt :=
  let tc := DiskSet.removeItem st.tagCache item.hash
  let k := hashString item.hash
  match rtLookup st.revTags k with
  | none => some { st with tagCache := tc }
  | some tags =>
    match tags.findIdx? (fun x => x == tag.tagStr) with
    | none => none
    | some i =>
        let tags2 := tags.eraseIdx i
        some { st with
               tagCache := tc
               revTags :=
                 if tags2.isEmpty then rtRemoveKey st.revTags k
                 else rtSetFirst st.revTags k tags2 }

/-- `IndexCache::global_contains`. -/
def globalContains (st : CacheSt) (h : ObjectHash) : Bool :=
  DiskSet.containsItem st.globalCache h

/-- `IndexCache::get_rev_tags`: the stored list, empty if the key is absent
    (the removal happens on the in-memory copy only, so the state is not
    changed). -/
def getRevTags (st : CacheSt) (h : ObjectHash) : List String :=
  (rtLookup st.revTags (hashString h)).getD []

end IndexCache

/-- The four action lists `sync` returns, each a list of
    `(path, hex_hash)` pairs. -/
structure SyncOut where
  compute : List (String × String)
  delete : List (String × String)
  addLabel : List (String × String)
  removeLabel : List (String × String)
deriving Repr, DecidableEq

/-- The first classification loop of `sync` (mod.rs): skip non-blobs; a
    globally known hash goes to `add_label`, an unknown one to `compute`;
    both branches then run `add_global`. -/
def processAdd (tag : TagR) : CacheSt → List Descr →
    CacheSt × List (String × String) × List (String × String)
  | st, [] => (st, [], [])
  | st, i :: rest =>
    if i.isBlob then
      let pair := (i.path, hashString i.hash)
      if IndexCache.globalContains st i.hash then
        let r := processAdd tag (IndexCache.addGlobal tag st i) rest
        (r.1, r.2.1, pair :: r.2.2)
      else
        let r := processAdd tag (IndexCache.addGlobal tag st i) rest
        (r.1, pair :: r.2.1, r.2.2)
    else processAdd tag st rest

/-- The second classification loop of `sync` (mod.rs): skip non-blobs and
    hashes absent from the global cache ("Should never happen"); a hash
    with at most one rev_tag goes to `delete` after `global_remove`, one
    with more goes to `remove_label` after `local_remove` (whose panic
    propagates). -/
def processRemove (tag : TagR) : CacheSt → List Descr →
    Option (CacheSt × List (String × String) × List (String × String))
  | st, [] => some (st, [], [])
  | st, i :: rest =>
    if i.isBlob then
      if IndexCache.globalContains st i.hash then
        let pair := (i.path, hashString i.hash)
        if (IndexCache.getRevTags st i.hash).length ≤ 1 then do
          let r ← processRemove tag (IndexCache.globalRemove st i) rest
          some (r.1, pair :: r.2.1, r.2.2)
        else do
          let st1 ← IndexCache.localRemove tag st i
          let r ← processRemove tag st1 rest
          some (r.1, r.2.1, pair :: r.2.2)
      else processRemove tag st rest
    else processRemove tag st rest

/-- The classification phase of `sync` on an already loaded old tree and an
    already built new tree: diff, then the two loops (directory creation,
    `.last_sync`, and the persist step touch neither the diff nor the
    caches and are omitted). `none` is a panic inside `local_remove`. -/
def syncFromTrees (tag : TagR) (old new : TreeS) (st : CacheSt) :
    Option (SyncOut × CacheSt) :=
  let d := diffTrees old new
  let a := processAdd tag st d.1
  (processRemove tag a.1 d.2).map
    (fun r => (⟨a.2.1, r.2.1, a.2.2, r.2.2⟩, r.1))

/-- One whole `sync` call at the model level: load the stored tree file
    (`Tree::load(..).unwrap_or_default()`), then classify against the tree
    built for the directory (`compute_tree_for_dir`'s result is passed in
    as `newTree`; the walker is deterministic, so an unchanged directory
    yields the same tree). -/
def syncModel (tag : TagR) (storedFile : Option (List (Option SNode)))
    (newTree : TreeS) (st : CacheSt) : Option (SyncOut × CacheSt) :=
  (loadTree storedFile).bind (fun old => syncFromTrees tag old newTree st)

/-! ## The Merkle builder (merkle.rs: `sha1_hash`, `blob_hash`, `tree_hash`,
    `PreTree`, `compute_tree_for_dir`, `Tree::set_childrens_parent`)

SHA-1 itself is out of scope (the spec fixes only the digest algorithm), so
every builder definition is parameterized by the digest
`dg : List Byte → ObjectHash`. The `Sha1` hasher's incremental `update`
calls accumulate the message; `finalize` digests the accumulated bytes, so
a hasher state is modelled as the byte list fed so far.

The walker is external: a directory traversal is an initial root entry plus
a list of entries, each carrying its path both as components (for the
`Path::starts_with` / `Path::parent` arithmetic) and as the rendered string
stored in the nodes, a directory flag, and for files either the extension
and UTF-8 content or `none` when `read_to_string` fails (binary file,
silently skipped). -/

/-- The UTF-8 bytes of a string (`Sha1::update` on a `&str`). -/
def strBytes (s : String) : List Byte :=
  s.toUTF8.toList.map UInt8.toNat

/-- `tree_hash`: a hasher updated with `b"tree"`, then with each child hash
    in order, then finalized. The fold is the accumulated message. -/
def treeHashCode (dg : List Byte → ObjectHash)
    (children : List ObjectHash) : ObjectHash :=
  dg (children.foldl (fun acc c => acc ++ c) (strBytes "tree"))

/-- `blob_hash(content, ext) = sha1("blob {ext} {content}")`. -/
def blobHashCode (dg : List Byte → ObjectHash) (content ext : String) : ObjectHash :=
  dg (strBytes ("blob " ++ ext ++ " " ++ content))

/-- One walker entry. -/
structure Entry where
  comps : List String
  pathStr : String
  isDir : Bool
  fileData : Option (String × String)
deriving Repr

/-- `struct PreTree { children, path }`: an accumulating directory frame. -/
structure PreTree where
  children : List Obj
  path : String
deriving Repr

/-- `PreTree::finalize`: a `Tree` with no parent, the accumulated children,
    and `tree_hash` of the children's hashes in order. -/
def PreTree.finalize (dg : List Byte → ObjectHash) (pt : PreTree) : TreeS :=
  ⟨none, pt.children, treeHashCode dg (pt.children.map Obj.hashF), pt.path⟩

/-- Pop the top pre-tree, finalize it, and push the resulting tree onto the
    children of the new top (`tree_stack.pop().unwrap()` then
    `tree_stack.last_mut().unwrap()`; `none` when fewer than two frames
    remain). The head of the list is the top of the stack. -/
def popOne (dg : List Byte → ObjectHash) : List PreTree → Option (List PreTree)
  | top :: nxt :: rest =>
      some ({ nxt with children := nxt.children ++ [(top.finalize dg).toObj] } :: rest)
  | _ => none

/-- The inner `while !path.starts_with(current_dir)` loop: pop and merge and
    step `current_dir` to its parent until the entry is under the current
    directory. `[]` is a prefix of everything, so the loop always stops; the
    fuel is the length of `current_dir`, which drops by one per turn. -/
def popUntil (dg : List Byte → ObjectHash) :
    Nat → List String → List String → List PreTree →
    Option (List PreTree × List String)
  | 0, cur, comps, stack =>
      if cur.isPrefixOf comps then some (stack, cur) else none
  | fu + 1, cur, comps, stack =>
      if cur.isPrefixOf comps then some (stack, cur)
      else do
        let stack2 ← popOne dg stack
        popUntil dg fu cur.dropLast comps stack2

/-- The body of the walker loop in `compute_tree_for_dir`: close finished
    directories, then push a new pre-tree for a directory entry, append a
    blob for a readable file (`create_blob` with `parent = None`), or skip a
    non-UTF-8 file. -/
def buildStep (dg : List Byte → ObjectHash)
    (st : List PreTree × List String) (e : Entry) :
    Option (List PreTree × List String) := do
  let (stack, cur) ← popUntil dg st.2.length st.2 e.comps st.1
  if e.isDir then
    some (⟨[], e.pathStr⟩ :: stack, e.comps)
  else
    match e.fileData with
    | some fd =>
        match stack with
        | top :: rest =>
            some ({ top with
                    children := top.children ++
                      [Obj.blob none (blobHashCode dg fd.2 fd.1) e.pathStr] } :: rest,
                  cur)
        | [] => none
    | none => some (stack, cur)

/-- The final `while tree_stack.len() > 1` collapse; the trailing
    `assert!(tree_stack.len() == 1)` panics on an empty stack. The fuel is
    the stack length, which drops by one per merge. -/
def collapse (dg : List Byte → ObjectHash) : Nat → List PreTree → Option PreTree
  | _, [pt] => some pt
  | 0, _ => none
  | _ + 1, [] => none
  | fu + 1, pt0 :: pt1 :: rest => do
      let stack2 ← popOne dg (pt0 :: pt1 :: rest)
      collapse dg fu stack2

/-! `Tree::set_childrens_parent`: each child's `parent` becomes the
    containing tree's hash, recursively; a node's own hash, path and child
    list structure are untouched. -/
mutual
def setParentObj (ph : ObjectHash) : Obj → Obj
  | .tree _ cs h p => .tree (some ph) (setParentList h cs) h p
  | .blob _ h p => .blob (some ph) h p
def setParentList (ph : ObjectHash) : List Obj → List Obj
  | [] => []
  | c :: cs => setParentObj ph c :: setParentList ph cs
end

/-- `Tree::set_childrens_parent` on the root: the root's own parent stays
    `None`. -/
def TreeS.setChildrensParent (t : TreeS) : TreeS :=
  { t with children := setParentList t.hash t.children }

/-- `compute_tree_for_dir`: start with one empty pre-tree for the root
    entry and `current_dir = dir`, fold the walker entries, collapse the
    stack, finalize the root, and fill in the parent back-references. -/
def computeTreeForDir (dg : List Byte → ObjectHash) (dirComps : List String)
    (rootPathStr : String) (entries : List Entry) : Option TreeS := do
  let st0 : List PreTree × List String := ([⟨[], rootPathStr⟩], dirComps)
  let st1 ← entries.foldlM (buildStep dg) st0
  let rootPre ← collapse dg st1.1.length st1.1
  some ((rootPre.finalize dg).setChildrensParent)

/-! The verified hash invariant: a node is `hashGood` when every tree node
    of its subtree has `hash = dg ("tree" bytes ++ concatenation of its
    children's hashes, in order)` — the spec's framing-free message, which
    `treeHash_eq_spec` below identifies with the source's incremental
    `tree_hash`. -/
mutual
def hashGoodObj (dg : List Byte → ObjectHash) : Obj → Bool
  | .blob _ _ _ => true
  | .tree _ cs h _ =>
      decide (h = dg (strBytes "tree" ++ (cs.map Obj.hashF).flatten)) &&
      hashGoodList dg cs
def hashGoodList (dg : List Byte → ObjectHash) : List Obj → Bool
  | [] => true
  | c :: cs => hashGoodObj dg c && hashGoodList dg cs
end

/-! ## The specification's four-bucket rule, transcribed from the spec's
    words (spec.md §4.H "IndexCache" and §4.I "Sync orchestrator",
    steps 7 and 8)

These `SpecModel` definitions follow the specification text, not the
source; the refinement theorem for C1 compares the source model
(`syncFromTrees`) against them. All spec operations are total: the spec's
`local_remove` "removes `tag_str` from `rev_tags[hex(d.hash)]`" — a no-op
when it is not there — where the source panics. -/

namespace SpecModel

/-- Spec §4.H `add(d)`: `global_cache.add`, `tag_cache.add`, then append
    `tag_str` to `rev_tags[hex(d.hash)]`, creating the list if needed. -/
def addOp (tag : TagR) (st : CacheSt) (d : Descr) : CacheSt :=
  let k := hashString d.hash
  { globalCache := DiskSet.addItem st.globalCache d.hash
    tagCache := DiskSet.addItem st.tagCache d.hash
    revTags :=
      match rtLookup st.revTags k with
      | some l => rtSetFirst st.revTags k (l ++ [tag.tagStr])
      | none => st.revTags ++ [(k, [tag.tagStr])] }

/-- Spec §4.H `global_remove(d)`: remove from both caches and delete the
    `hex(d.hash)` key from rev_tags entirely. -/
def globalRemoveOp (st : CacheSt) (d : Descr) : CacheSt :=
  { globalCache := DiskSet.removeItem st.globalCache d.hash
    tagCache := DiskSet.removeItem st.tagCache d.hash
    revTags := rtRemoveKey st.revTags (hashString d.hash) }

/-- Spec §4.H `local_remove(d)`: remove from the tag cache, remove
    `tag_str` from `rev_tags[hex(d.hash)]`, and drop the key if the list
    becomes empty. -/
def localRemoveOp (tag : TagR) (st : CacheSt) (d : Descr) : CacheSt :=
  let k := hashString d.hash
  { st with
    tagCache := DiskSet.removeItem st.tagCache d.hash
    revTags :=
      match rtLookup st.revTags k with
      | none => st.revTags
      | some tags =>
          let tags2 := tags.erase tag.tagStr
          if tags2.isEmpty then rtRemoveKey st.revTags k
          else rtSetFirst st.revTags k tags2 }

/-- Spec §4.I step 7: classify each added blob — known globally means
    `add_label`, otherwise `compute`; then `add(b)` either way. Tree
    descriptions are filtered out. -/
def classifyAdd (tag : TagR) : CacheSt → List Descr →
    CacheSt × List (String × String) × List (String × String)
  | st, [] => (st, [], [])
  | st, b :: rest =>
    if b.isBlob then
      if DiskSet.containsItem st.globalCache b.hash then
        let r := classifyAdd tag (addOp tag st b) rest
        (r.1, r.2.1, (b.path, hashString b.hash) :: r.2.2)
      else
        let r := classifyAdd tag (addOp tag st b) rest
        (r.1, (b.path, hashString b.hash) :: r.2.1, r.2.2)
    else classifyAdd tag st rest

/-- Spec §4.I step 8: classify each removed blob — with at most one
    rev_tag it is `delete` plus `global_remove`, otherwise `remove_label`
    plus `local_remove`; a blob absent from the global cache is a logic
    error that is silently ignored. -/
def classifyRemove (tag : TagR) : CacheSt → List Descr →
    CacheSt × List (String × String) × List (String × String)
  | st, [] => (st, [], [])
  | st, b :: rest =>
    if b.isBlob then
      if DiskSet.containsItem st.globalCache b.hash then
        if ((rtLookup st.revTags (hashString b.hash)).getD []).length ≤ 1 then
          let r := classifyRemove tag (globalRemoveOp st b) rest
          (r.1, (b.path, hashString b.hash) :: r.2.1, r.2.2)
        else
          let r := classifyRemove tag (localRemoveOp tag st b) rest
          (r.1, r.2.1, (b.path, hashString b.hash) :: r.2.2)
      else classifyRemove tag st rest
    else classifyRemove tag st rest

/-- Spec §4.I: diff the two trees, then run steps 7 and 8. -/
def syncSpec (tag : TagR) (old new : TreeS) (st : CacheSt) :
    SyncOut × CacheSt :=
  let d := diffTrees old new
  let a := classifyAdd tag st d.1
  let r := classifyRemove tag a.1 d.2
  (⟨a.2.1, r.2.1, a.2.2, r.2.2⟩, r.1)

end SpecModel

/-- The `(path, hex_hash)` pairs that sync's output draws from a diff list:
    the tree descriptions are filtered out, each blob description becomes
    `(path, hex hash)`. -/
def blobPairs (l : List Descr) : List (String × String) :=
  (l.filter (fun d => d.isBlob)).map (fun d => (d.path, hashString d.hash))

/-! ## Concrete instances used by counterexamples and witnesses -/

/-- Hash of the example blob `d/f`. -/
def hbEx : ObjectHash := List.replicate 20 7

/-- Hash of the example directory `d`. -/
def hdEx : ObjectHash := List.replicate 20 1

/-- A blob `d/f` inside the example directory. -/
def bEx : Obj := .blob none hbEx "d/f"

/-- An example directory `d` holding one blob — a two-node subtree. -/
def dEx : Obj := .tree none [bEx] hdEx "d"

/-- An old root whose only child is the directory `d`. -/
def oldEx : TreeS := ⟨none, [dEx], List.replicate 20 2, ""⟩

/-- A new root with no children (the directory `d` was deleted). -/
def newEx : TreeS := ⟨none, [], List.replicate 20 3, ""⟩

/-- An example tag. -/
def tagEx : TagR := ⟨"/w", "b", "p"⟩

/-- A cache state where the blob's hash is globally known and rev_tags
    lists this tag and one other tag for it. -/
def stEx : CacheSt :=
  ⟨[hbEx], [hbEx], [(hashString hbEx, [tagEx.tagStr, "other"])]⟩

/-- An empty cache state. -/
def stEmpty : CacheSt := ⟨[], [], []⟩

/-- A new root adding one blob `f` over the default (empty) tree. -/
def addTreeEx : TreeS := ⟨none, [.blob none (List.replicate 20 9) "f"], List.replicate 20 8, ""⟩

/-- A stand-in digest for the builder witness (any function works: the
    builder invariant holds for every digest). -/
def dgEx : List Byte → ObjectHash := fun l => [l.length]

/-- A two-entry walk: a directory `r/a`, then a file `r/a/f` inside it. -/
def entsEx : List Entry :=
  [⟨["r", "a"], "r/a", true, none⟩,
   ⟨["r", "a", "f"], "r/a/f", false, some ("txt", "hi")⟩]

/-- DiskSet scenario item `A = [1; 20]`. -/
def itemA : ObjectHash := List.replicate 20 1

/-- DiskSet scenario item `B = [20; 20]`. -/
def itemB : ObjectHash := List.replicate 20 20

/-- DiskSet scenario item `C = [30; 20]`. -/
def itemC : ObjectHash := List.replicate 20 30

/-- Hash for the `local_remove` witnesses. -/
def hTen : ObjectHash := List.replicate 20 170

/-- Blob description for the `local_remove` witnesses. -/
def dTen : Descr := ⟨hTen, "x", true⟩

/-- Tag for the `local_remove` witnesses. -/
def tagTen : TagR := ⟨"t", "b", "p"⟩

/-- State whose rev_tags key holds exactly this tag's string. -/
def stTenA : CacheSt := ⟨[], [hTen], [(hashString hTen, [tagTen.tagStr])]⟩

/-- State whose rev_tags key holds a foreign tag string only. -/
def stTenB : CacheSt := ⟨[], [hTen], [(hashString hTen, ["zzz"])]⟩

/-! ## Supporting lemmas -/

/-- Induction principle for `Obj` that gives the tree case its children's
    hypotheses through list membership (the raw nested recursor has two
    motives, which the `induction` tactic cannot use directly). -/
theorem Obj.inductOn (motive : Obj → Prop)
    (hblob : ∀ pr h p, motive (.blob pr h p))
    (htree : ∀ pr cs h p, (∀ c ∈ cs, motive c) → motive (.tree pr cs h p)) :
    ∀ o, motive o := by
  intro o
  refine @Obj.rec motive (fun l => ∀ c ∈ l, motive c)
    (fun pr cs h p ih => htree pr cs h p ih) hblob ?_ ?_ o
  · intro c hc
    simp at hc
  · intro c cs hc ihcs d hd
    rcases List.mem_cons.mp hd with h | h
    · exact h ▸ hc
    · exact ihcs d h

/-! Fuel adequacy: `objDiffF` with fuel at least `Obj.size old` is `some`.
    The map handed to `goNew` only ever holds old children, whose sizes are
    bounded by the size of the old tree. -/

theorem mapInsert_mem_snd {m : List (String × Obj)} {k : String} {v : Obj}
    {kv : String × Obj} (h : kv ∈ mapInsert m k v) :
    kv.2 = v ∨ kv ∈ m := by
  induction m with
  | nil => simp [mapInsert] at h; simp [h]
  | cons hd tl ih =>
    by_cases hk : hd.1 = k
    · simp [mapInsert, hk] at h
      rcases h with h | h
      · left; simp [h]
      · right; simp [h]
    · simp only [mapInsert] at h
      rw [if_neg hk] at h
      rcases List.mem_cons.mp h with h | h
      · right; simp [h]
      · rcases ih h with h | h
        · left; exact h
        · right; exact List.mem_cons_of_mem _ h

theorem pathMap_mem_snd {cs : List Obj} {kv : String × Obj}
    (h : kv ∈ pathMap cs) : kv.2 ∈ cs := by
  suffices hgen : ∀ (l : List Obj) (m0 : List (String × Obj)),
      (∀ x ∈ m0, x.2 ∈ cs) → (∀ c ∈ l, c ∈ cs) →
      kv ∈ l.foldl (fun m c => mapInsert m c.pathF c) m0 → kv.2 ∈ cs by
    exact hgen cs [] (by simp) (fun c hc => hc) h
  intro l
  induction l with
  | nil => intro m0 hm0 _ hmem; exact hm0 kv hmem
  | cons c l ih =>
    intro m0 hm0 hl hmem
    refine ih (mapInsert m0 c.pathF c) ?_ (fun d hd => hl d (List.mem_cons_of_mem _ hd)) hmem
    intro x hx
    rcases mapInsert_mem_snd hx with h | h
    · rw [h]; exact hl c (List.mem_cons_self c l)
    · exact hm0 x h

theorem mapErase_subset {m : List (String × Obj)} {k : String}
    {kv : String × Obj} (h : kv ∈ mapErase m k) : kv ∈ m := by
  induction m with
  | nil => simp [mapErase] at h
  | cons hd tl ih =>
    by_cases hk : hd.1 = k
    · simp only [mapErase] at h
      rw [if_pos hk] at h
      exact List.mem_cons_of_mem _ h
    · simp only [mapErase] at h
      rw [if_neg hk] at h
      rcases List.mem_cons.mp h with h | h
      · simp [h]
      · exact List.mem_cons_of_mem _ (ih h)

theorem mapFind_mem {m : List (String × Obj)} {k : String} {v : Obj}
    (h : mapFind m k = some v) : (k, v) ∈ m ∨ ∃ k0, (k0, v) ∈ m := by
  right
  induction m with
  | nil => simp [mapFind] at h
  | cons hd tl ih =>
    by_cases hk : hd.1 = k
    · simp only [mapFind] at h
      rw [if_pos hk] at h
      exact ⟨hd.1, by simp [← Option.some_inj.mp h]⟩
    · simp only [mapFind] at h
      rw [if_neg hk] at h
      rcases ih h with ⟨k0, hk0⟩
      exact ⟨k0, List.mem_cons_of_mem _ hk0⟩

theorem size_pos (o : Obj) : 0 < o.size := by
  cases o with
  | tree pr cs h p => simp [Obj.size]
  | blob pr h p => simp [Obj.size]

theorem size_le_sizeList {c : Obj} {cs : List Obj} (h : c ∈ cs) :
    c.size ≤ sizeList cs := by
  induction cs with
  | nil => simp at h
  | cons d l ih =>
    rcases List.mem_cons.mp h with h | h
    · subst h; simp [sizeList]
    · have := ih h
      simp only [sizeList]
      omega

theorem goNew_isSome {recur : Obj → Obj → Option (List Descr × List Descr)}
    {m : List (String × Obj)} {ncs : List Obj}
    (hrec : ∀ kv ∈ m, ∀ c, (recur kv.2 c).isSome) :
    (goNew recur m ncs).isSome := by
  induction ncs generalizing m with
  | nil => simp [goNew]
  | cons c ncs ih =>
    simp only [goNew]
    cases hfind : mapFind m c.pathF with
    | none =>
      have h2 := ih hrec
      cases hgo : goNew recur m ncs with
      | none => rw [hgo] at h2; simp at h2
      | some r => simp [hgo]
    | some oc =>
      have hoc : ∀ d, (recur oc d).isSome := by
        intro d
        rcases mapFind_mem hfind with h | ⟨k0, hk0⟩
        · exact hrec (c.pathF, oc) h d
        · exact hrec (k0, oc) hk0 d
      have h1 := hoc c
      cases hr : recur oc c with
      | none => rw [hr] at h1; simp at h1
      | some r1 =>
        have hsub : ∀ kv ∈ mapErase m c.pathF, ∀ d, (recur kv.2 d).isSome :=
          fun kv hkv => hrec kv (mapErase_subset hkv)
        have h2 := ih hsub
        cases hgo : goNew recur (mapErase m c.pathF) ncs with
        | none => rw [hgo] at h2; simp at h2
        | some r2 => simp [hr, hgo]

theorem objDiffF_isSome : ∀ (f : Nat) (old new : Obj), old.size ≤ f →
    (objDiffF f old new).isSome := by
  intro f
  induction f with
  | zero => intro old new h; have := size_pos old; omega
  | succ f ih =>
    intro old new hle
    simp only [objDiffF]
    by_cases hh : old.hashF = new.hashF
    · simp [hh]
    · rw [if_neg hh]
      match old, new with
      | .tree opr ocs oh opa, .tree npr ncs nh npa =>
        have hrec : ∀ kv ∈ pathMap ocs, ∀ c, (objDiffF f kv.2 c).isSome := by
          intro kv hkv c
          have hmem := pathMap_mem_snd hkv
          have hsz : kv.2.size ≤ f := by
            have h1 := size_le_sizeList hmem
            simp only [Obj.size] at hle
            omega
          exact ih kv.2 c hsz
        have h1 := @goNew_isSome (objDiffF f) (pathMap ocs) ncs hrec
        cases hgo : goNew (objDiffF f) (pathMap ocs) ncs with
        | none => rw [hgo] at h1; simp at h1
        | some r => simp [hgo]
      | .blob opr oh opa, .blob npr nh npa => simp
      | .blob opr oh opa, .tree npr ncs nh npa => simp
      | .tree opr ocs oh opa, .blob npr nh npa => simp

/-- The canonical fuel of `diffChildrenTop` is sufficient, so its `([], [])`
    fallback is dead code in every use below. -/
theorem diffChildren_isSome (ocs ncs : List Obj) :
    (goNew (objDiffF (sizeList ocs + 1)) (pathMap ocs) ncs).isSome := by
  apply goNew_isSome
  intro kv hkv c
  have hmem := pathMap_mem_snd hkv
  have h1 := size_le_sizeList hmem
  exact objDiffF_isSome _ _ _ (by omega)

/-! Lemmas about the rev_tags association list. -/

theorem flatMap_const_length {α β : Type} (l : List α) (l2 : List β) :
    (l.flatMap (fun _ => l2)).length = l.length * l2.length := by
  induction l with
  | nil => simp
  | cons a rest ih =>
    simp only [List.flatMap_cons, List.length_append, List.length_cons, ih,
      Nat.succ_mul]
    omega

theorem flatMap_const_count {α β : Type} [BEq β] (l : List α) (l2 : List β)
    (x : β) : (l.flatMap (fun _ => l2)).count x = l.length * l2.count x := by
  induction l with
  | nil => simp
  | cons a rest ih =>
    simp only [List.flatMap_cons, List.count_append, List.length_cons, ih,
      Nat.succ_mul]
    omega

theorem rtLookup_setFirst_self (rt : List (String × List String)) (k : String)
    (v : List String) (h : (rtLookup rt k).isSome) :
    rtLookup (rtSetFirst rt k v) k = some v := by
  induction rt with
  | nil => simp [rtLookup] at h
  | cons hd tl ih =>
    obtain ⟨k0, v0⟩ := hd
    by_cases hk : k0 = k
    · simp [rtSetFirst, rtLookup, hk]
    · simp only [rtSetFirst, rtLookup, if_neg hk] at h ⊢
      exact ih h

theorem rtLookup_append_single (rt : List (String × List String)) (k : String)
    (v : List String) (h : rtLookup rt k = none) :
    rtLookup (rt ++ [(k, v)]) k = some v := by
  induction rt with
  | nil => simp [rtLookup]
  | cons hd tl ih =>
    obtain ⟨k0, v0⟩ := hd
    by_cases hk : k0 = k
    · simp [rtLookup, hk] at h
    · simp only [rtLookup, if_neg hk, List.cons_append] at h ⊢
      exact ih h

theorem rtLookup_eq_none_of_not_mem (rt : List (String × List String))
    (k : String) (h : k ∉ rt.map Prod.fst) : rtLookup rt k = none := by
  induction rt with
  | nil => rfl
  | cons hd tl ih =>
    obtain ⟨k0, v0⟩ := hd
    simp only [List.map_cons, List.mem_cons] at h
    push_neg at h
    simp only [rtLookup, if_neg (Ne.symm h.1)]
    exact ih h.2

theorem rtLookup_removeKey_self (rt : List (String × List String)) (k : String)
    (hnd : (rt.map Prod.fst).Nodup) : rtLookup (rtRemoveKey rt k) k = none := by
  induction rt with
  | nil => rfl
  | cons hd tl ih =>
    obtain ⟨k0, v0⟩ := hd
    simp only [List.map_cons, List.nodup_cons] at hnd
    by_cases hk : k0 = k
    · simp only [rtRemoveKey, if_pos hk]
      exact rtLookup_eq_none_of_not_mem tl k (hk ▸ hnd.1)
    · simp only [rtRemoveKey, if_neg hk, rtLookup]
      exact ih hnd.2

/-- `IndexCache::add_global` appends the tag string to the hash's rev_tags
    list, unconditionally. -/
theorem getRevTags_addGlobal (tag : TagR) (st : CacheSt) (item : Descr) :
    IndexCache.getRevTags (IndexCache.addGlobal tag st item) item.hash
      = IndexCache.getRevTags st item.hash ++ [tag.tagStr] := by
  unfold IndexCache.getRevTags IndexCache.addGlobal
  cases hl : rtLookup st.revTags (hashString item.hash) with
  | none =>
      simp only [hl]
      rw [rtLookup_append_single st.revTags _ _ hl]
      simp
  | some l =>
      simp only [hl]
      rw [rtLookup_setFirst_self st.revTags _ _ (by simp [hl])]
      simp

/-- Removing the list element at the index found by `position` is removing
    the first occurrence. -/
theorem eraseIdx_findIdx_eq_erase (t : String) :
    ∀ (tags : List String) (i : Nat),
      tags.findIdx? (fun x => x == t) = some i → tags.eraseIdx i = tags.erase t := by
  intro tags
  induction tags with
  | nil => intro i h; simp [List.findIdx?] at h
  | cons a rest ih =>
    intro i h
    rw [List.findIdx?_cons] at h
    by_cases ha : a = t
    · rw [if_pos (by simp [ha])] at h
      cases h
      rw [List.eraseIdx_cons_zero, List.erase_cons, if_pos (by simp [ha])]
    · rw [if_neg (by simp [ha]), List.findIdx?_succ] at h
      cases hj : List.findIdx? (fun x => x == t) rest with
      | none => rw [hj] at h; simp at h
      | some j =>
        rw [hj] at h
        have hij : j + 1 = i := by simpa using h
        subst hij
        rw [List.eraseIdx_cons_succ, List.erase_cons,
            if_neg (by simp [ha] : ¬((a == t) = true)), ih j hj]

/-! Lemmas for the persist/load round trip: the serialization of a subtree
    occupies exactly one line per node, and parsing it back from any line
    position reconstructs the subtree and leaves the rest untouched. -/

theorem serializeList_length_aux (cs : List Obj)
    (h : ∀ c ∈ cs, (Obj.serialize c).length = c.size) :
    (serializeList cs).length = sizeList cs := by
  induction cs with
  | nil => rfl
  | cons c rest ih =>
    simp only [serializeList, sizeList, List.length_append]
    rw [h c (List.mem_cons_self c rest),
        ih (fun d hd => h d (List.mem_cons_of_mem c hd))]

theorem serialize_length (o : Obj) : (Obj.serialize o).length = o.size := by
  induction o using Obj.inductOn with
  | hblob pr h p => rfl
  | htree pr cs h p ih =>
    simp only [Obj.serialize, List.length_cons, Obj.size]
    rw [serializeList_length_aux cs ih]
    omega

theorem serializeList_length (cs : List Obj) :
    (serializeList cs).length = sizeList cs :=
  serializeList_length_aux cs (fun c _ => serialize_length c)

theorem parseKids_roundtrip :
    ∀ (f : Nat) (cs : List Obj) (rest : List (Option SNode)),
      sizeList cs ≤ f →
      parseKids (parseTreeF f) cs.length ((serializeList cs).map some ++ rest)
        = some (cs, rest) := by
  intro f
  induction f using Nat.strong_induction_on with
  | _ f ihf =>
    intro cs
    induction cs with
    | nil =>
      intro rest hsz
      simp [serializeList, parseKids]
    | cons c rest0 ihcs =>
      intro rest hsz
      have hsz0 : sizeList rest0 ≤ f := by
        have := size_pos c
        simp only [sizeList] at hsz
        omega
      match c with
      | .blob pr h p =>
        simp only [serializeList, Obj.serialize, List.singleton_append, List.map_cons,
          List.length_cons, List.cons_append, parseKids, List.append_eq, List.nil_append]
        rw [ihcs rest hsz0]
        rfl
      | .tree pr ccs h p =>
        obtain ⟨f2, rfl⟩ : ∃ f2, f = f2 + 1 := by
          refine ⟨f - 1, ?_⟩
          have := size_pos (Obj.tree pr ccs h p)
          simp only [sizeList] at hsz
          omega
        have hszc : sizeList ccs ≤ f2 := by
          simp only [sizeList, Obj.size] at hsz
          omega
        simp only [serializeList, Obj.serialize, List.cons_append, List.map_cons,
          List.map_append, List.length_cons, List.append_assoc, parseKids,
          List.append_eq, List.nil_append]
        have hchild :
            parseTreeF (f2 + 1) ⟨pr, some (ccs.map Obj.hashF), h, p⟩
              ((serializeList ccs).map some ++ ((serializeList rest0).map some ++ rest))
              = some (⟨pr, ccs, h, p⟩, (serializeList rest0).map some ++ rest) := by
          simp only [parseTreeF, List.length_map]
          rw [ihf f2 (by omega) ccs ((serializeList rest0).map some ++ rest) hszc]
          rfl
        simp only [hchild]
        show (parseKids (parseTreeF (f2 + 1)) rest0.length
              ((serializeList rest0).map some ++ rest)).bind
              (fun d1 => some ((TreeS.mk pr ccs h p).toObj :: d1.1, d1.2))
            = some (Obj.tree pr ccs h p :: rest0, rest)
        rw [ihcs rest hsz0]
        rfl

theorem loadTree_roundtrip (t : TreeS) :
    loadTree (some ((TreeS.serialize t).map some)) = some t := by
  obtain ⟨pr, cs, h, p⟩ := t
  simp only [TreeS.serialize, TreeS.toObj, Obj.serialize, List.map_cons, loadTree]
  simp only [parseTreeF, List.length_map]
  have hk := parseKids_roundtrip ((serializeList cs).length) cs []
    (by rw [serializeList_length])
  rw [List.append_nil] at hk
  rw [hk]
  rfl

/-! Lemmas for the Merkle builder's hash invariant. -/

theorem foldl_append_eq_flatten (l : List (List Byte)) :
    ∀ a : List Byte, l.foldl (fun acc c => acc ++ c) a = a ++ l.flatten := by
  induction l with
  | nil => intro a; simp
  | cons h t ih =>
    intro a
    simp only [List.foldl_cons, List.flatten_cons, ih, List.append_assoc]

/-- The incremental hasher of `tree_hash` digests exactly the spec's
    framing-free message `"tree" ‖ child₁.hash ‖ child₂.hash ‖ …`. -/
theorem treeHashCode_eq_spec (dg : List Byte → ObjectHash) (hs : List ObjectHash) :
    treeHashCode dg hs = dg (strBytes "tree" ++ hs.flatten) := by
  unfold treeHashCode
  rw [foldl_append_eq_flatten]

theorem hashF_setParentObj (ph : ObjectHash) (o : Obj) :
    (setParentObj ph o).hashF = o.hashF := by
  cases o <;> rfl

theorem setParentList_map_hashF (ph : ObjectHash) (cs : List Obj) :
    (setParentList ph cs).map Obj.hashF = cs.map Obj.hashF := by
  induction cs with
  | nil => rfl
  | cons c rest ih =>
    simp only [setParentList, List.map_cons, hashF_setParentObj, ih]

theorem hashGoodList_setParent_aux (dg : List Byte → ObjectHash) (cs : List Obj)
    (h : ∀ c ∈ cs, ∀ ph, hashGoodObj dg (setParentObj ph c) = hashGoodObj dg c) :
    ∀ ph, hashGoodList dg (setParentList ph cs) = hashGoodList dg cs := by
  induction cs with
  | nil => intro ph; rfl
  | cons c rest ih =>
    intro ph
    simp only [setParentList, hashGoodList]
    rw [h c (List.mem_cons_self c rest) ph,
        ih (fun d hd => h d (List.mem_cons_of_mem c hd))]

/-- Filling in the parent back-references changes no node's hash, so the
    hash invariant is preserved. -/
theorem hashGoodObj_setParent (dg : List Byte → ObjectHash) (o : Obj) :
    ∀ ph, hashGoodObj dg (setParentObj ph o) = hashGoodObj dg o := by
  induction o using Obj.inductOn with
  | hblob pr h p => intro ph; rfl
  | htree pr cs h p ih =>
    intro ph
    simp only [setParentObj, hashGoodObj, setParentList_map_hashF]
    rw [hashGoodList_setParent_aux dg cs ih]

theorem hashGoodList_setParentList (dg : List Byte → ObjectHash)
    (ph : ObjectHash) (cs : List Obj) :
    hashGoodList dg (setParentList ph cs) = hashGoodList dg cs :=
  hashGoodList_setParent_aux dg cs (fun c _ => hashGoodObj_setParent dg c) ph

theorem hashGoodList_append (dg : List Byte → ObjectHash) (l1 l2 : List Obj) :
    hashGoodList dg (l1 ++ l2) = (hashGoodList dg l1 && hashGoodList dg l2) := by
  induction l1 with
  | nil => simp [hashGoodList]
  | cons c rest ih =>
    simp only [List.cons_append, hashGoodList, List.append_eq, ih, Bool.and_assoc]

theorem finalize_good (dg : List Byte → ObjectHash) (pt : PreTree)
    (h : hashGoodList dg pt.children = true) :
    hashGoodObj dg ((pt.finalize dg).toObj) = true := by
  simp only [PreTree.finalize, TreeS.toObj, hashGoodObj, treeHashCode_eq_spec, h,
    Bool.and_true, decide_eq_true_eq]

theorem popOne_good (dg : List Byte → ObjectHash) (stack stack2 : List PreTree)
    (hst : ∀ pt ∈ stack, hashGoodList dg pt.children = true)
    (hp : popOne dg stack = some stack2) :
    ∀ pt ∈ stack2, hashGoodList dg pt.children = true := by
  match stack, hp with
  | top :: nxt :: rest, hp =>
    cases hp
    intro pt hpt
    rcases List.mem_cons.mp hpt with h | h
    · subst h
      simp only [hashGoodList_append]
      rw [hst nxt (List.mem_cons_of_mem _ (List.mem_cons_self nxt rest))]
      simp only [hashGoodList, Bool.and_true, Bool.true_and]
      exact finalize_good dg top (hst top (List.mem_cons_self top (nxt :: rest)))
    · exact hst pt (List.mem_cons_of_mem _ (List.mem_cons_of_mem _ h))

theorem popUntil_good (dg : List Byte → ObjectHash) :
    ∀ (fu : Nat) (cur comps : List String) (stack stack2 : List PreTree)
      (cur2 : List String),
      (∀ pt ∈ stack, hashGoodList dg pt.children = true) →
      popUntil dg fu cur comps stack = some (stack2, cur2) →
      ∀ pt ∈ stack2, hashGoodList dg pt.children = true := by
  intro fu
  induction fu with
  | zero =>
    intro cur comps stack stack2 cur2 hst hp
    simp only [popUntil] at hp
    by_cases hpre : cur.isPrefixOf comps
    · rw [if_pos hpre] at hp
      cases hp
      exact hst
    · rw [if_neg hpre] at hp
      cases hp
  | succ fu ih =>
    intro cur comps stack stack2 cur2 hst hp
    simp only [popUntil] at hp
    by_cases hpre : cur.isPrefixOf comps
    · rw [if_pos hpre] at hp
      cases hp
      exact hst
    · rw [if_neg hpre] at hp
      cases hpop : popOne dg stack with
      | none => rw [hpop] at hp; cases hp
      | some stack3 =>
        rw [hpop] at hp
        simp only [Option.bind_eq_bind, Option.some_bind] at hp
        exact ih cur.dropLast comps stack3 stack2 cur2
          (popOne_good dg stack stack3 hst hpop) hp

theorem buildStep_good (dg : List Byte → ObjectHash)
    (st st2 : List PreTree × List String) (e : Entry)
    (hst : ∀ pt ∈ st.1, hashGoodList dg pt.children = true)
    (hp : buildStep dg st e = some st2) :
    ∀ pt ∈ st2.1, hashGoodList dg pt.children = true := by
  simp only [buildStep] at hp
  cases hpop : popUntil dg st.2.length st.2 e.comps st.1 with
  | none => rw [hpop] at hp; cases hp
  | some s3 =>
    rw [hpop] at hp
    simp only [Option.bind_eq_bind, Option.some_bind] at hp
    obtain ⟨stack3, cur3⟩ := s3
    have hg3 : ∀ pt ∈ stack3, hashGoodList dg pt.children = true :=
      popUntil_good dg st.2.length st.2 e.comps st.1 stack3 cur3 hst hpop
    by_cases hdir : e.isDir
    · rw [if_pos hdir] at hp
      cases hp
      intro pt hpt
      rcases List.mem_cons.mp hpt with h | h
      · subst h; rfl
      · exact hg3 pt h
    · rw [if_neg hdir] at hp
      cases hfd : e.fileData with
      | some fd =>
        rw [hfd] at hp
        match stack3, hg3, hp with
        | top :: rest, hg3, hp =>
          cases hp
          intro pt hpt
          rcases List.mem_cons.mp hpt with h | h
          · subst h
            simp only [hashGoodList_append]
            rw [hg3 top (List.mem_cons_self top rest)]
            rfl
          · exact hg3 pt (List.mem_cons_of_mem _ h)
      | none =>
        rw [hfd] at hp
        cases hp
        exact hg3

theorem foldlM_buildStep_good (dg : List Byte → ObjectHash) :
    ∀ (entries : List Entry) (st st2 : List PreTree × List String),
      (∀ pt ∈ st.1, hashGoodList dg pt.children = true) →
      List.foldlM (buildStep dg) st entries = some st2 →
      ∀ pt ∈ st2.1, hashGoodList dg pt.children = true := by
  intro entries
  induction entries with
  | nil =>
    intro st st2 hst hp
    simp only [List.foldlM_nil, pure, Option.pure_def, Option.some_inj] at hp
    exact hp ▸ hst
  | cons e es ih =>
    intro st st2 hst hp
    rw [List.foldlM_cons] at hp
    cases hstep : buildStep dg st e with
    | none => rw [hstep] at hp; cases hp
    | some st3 =>
      rw [hstep] at hp
      simp only [Option.bind_eq_bind, Option.some_bind] at hp
      exact ih st3 st2 (buildStep_good dg st st3 e hst hstep) hp

theorem collapse_good (dg : List Byte → ObjectHash) :
    ∀ (fu : Nat) (stack : List PreTree) (pt : PreTree),
      (∀ q ∈ stack, hashGoodList dg q.children = true) →
      collapse dg fu stack = some pt →
      hashGoodList dg pt.children = true := by
  intro fu
  induction fu with
  | zero =>
    intro stack pt hst hp
    match stack, hp with
    | [q], hp =>
      cases hp
      exact hst _ (List.mem_cons_self _ [])
  | succ fu ih =>
    intro stack pt hst hp
    match stack, hp with
    | [q], hp =>
      cases hp
      exact hst _ (List.mem_cons_self _ [])
    | q0 :: q1 :: rest, hp =>
      simp only [collapse] at hp
      cases hpop : popOne dg (q0 :: q1 :: rest) with
      | none => rw [hpop] at hp; cases hp
      | some stack3 =>
        rw [hpop] at hp
        simp only [Option.bind_eq_bind, Option.some_bind] at hp
        exact ih stack3 pt (popOne_good dg _ stack3 hst hpop) hp

/-! Lemmas for the C1 refinement: the source classification loops equal the
    spec's classifier, item by item, whenever the source run returns. -/

theorem addGlobal_eq_addOp : @IndexCache.addGlobal = @SpecModel.addOp := rfl

theorem globalRemove_eq_globalRemoveOp :
    @IndexCache.globalRemove = @SpecModel.globalRemoveOp := rfl

theorem processAdd_eq_classifyAdd (tag : TagR) :
    ∀ (items : List Descr) (st : CacheSt),
      processAdd tag st items = SpecModel.classifyAdd tag st items := by
  intro items
  induction items with
  | nil => intro st; rfl
  | cons i rest ih =>
    intro st
    simp only [processAdd, SpecModel.classifyAdd]
    by_cases hb : i.isBlob = true
    · rw [if_pos hb, if_pos hb]
      by_cases hc : DiskSet.containsItem st.globalCache i.hash = true
      · have hc2 : IndexCache.globalContains st i.hash = true := hc
        rw [if_pos hc, if_pos hc2, ih, addGlobal_eq_addOp]
      · have hc2 : ¬IndexCache.globalContains st i.hash = true := hc
        rw [if_neg hc, if_neg hc2, ih, addGlobal_eq_addOp]
    · rw [if_neg hb, if_neg hb, ih]

theorem localRemove_some_eq (tag : TagR) (st : CacheSt) (d : Descr) (x : CacheSt)
    (h : IndexCache.localRemove tag st d = some x) :
    SpecModel.localRemoveOp tag st d = x := by
  cases hl : rtLookup st.revTags (hashString d.hash) with
  | none =>
    simp only [IndexCache.localRemove, hl, Option.some_inj] at h
    simp only [SpecModel.localRemoveOp, hl]
    exact h
  | some tags =>
    simp only [IndexCache.localRemove, hl] at h
    simp only [SpecModel.localRemoveOp, hl]
    cases hi : tags.findIdx? (fun s => s == tag.tagStr) with
    | none =>
      simp only [hi] at h
      exact Option.noConfusion h
    | some i =>
      simp only [hi, Option.some_inj] at h
      rw [← eraseIdx_findIdx_eq_erase tag.tagStr tags i hi]
      exact h

theorem processRemove_eq_classifyRemove (tag : TagR) :
    ∀ (items : List Descr) (st : CacheSt) (r : CacheSt × List (String × String) × List (String × String)),
      processRemove tag st items = some r →
      SpecModel.classifyRemove tag st items = r := by
  intro items
  induction items with
  | nil =>
    intro st r h
    simp only [processRemove, Option.some_inj] at h
    simp only [SpecModel.classifyRemove]
    exact h
  | cons i rest ih =>
    intro st r h
    simp only [processRemove] at h
    simp only [SpecModel.classifyRemove]
    by_cases hb : i.isBlob = true
    · rw [if_pos hb] at h
      rw [if_pos hb]
      by_cases hc : DiskSet.containsItem st.globalCache i.hash = true
      · have hc2 : IndexCache.globalContains st i.hash = true := hc
        rw [if_pos hc2] at h
        rw [if_pos hc]
        by_cases hlen : (IndexCache.getRevTags st i.hash).length ≤ 1
        · have hlen2 : ((rtLookup st.revTags (hashString i.hash)).getD []).length ≤ 1 := hlen
          rw [if_pos hlen] at h
          rw [if_pos hlen2]
          cases hrec : processRemove tag (IndexCache.globalRemove st i) rest with
          | none => rw [hrec] at h; cases h
          | some r2 =>
            rw [hrec] at h
            simp only [Option.bind_eq_bind, Option.some_bind, Option.some_inj] at h
            rw [← globalRemove_eq_globalRemoveOp, ih (IndexCache.globalRemove st i) r2 hrec]
            exact h
        · have hlen2 : ¬((rtLookup st.revTags (hashString i.hash)).getD []).length ≤ 1 := hlen
          rw [if_neg hlen] at h
          rw [if_neg hlen2]
          cases hloc : IndexCache.localRemove tag st i with
          | none => rw [hloc] at h; cases h
          | some st3 =>
            rw [hloc] at h
            simp only [Option.bind_eq_bind, Option.some_bind] at h
            cases hrec : processRemove tag st3 rest with
            | none => rw [hrec] at h; cases h
            | some r2 =>
              rw [hrec] at h
              simp only [Option.some_bind, Option.some_inj] at h
              rw [localRemove_some_eq tag st i st3 hloc, ih st3 r2 hrec]
              exact h
      · have hc2 : ¬IndexCache.globalContains st i.hash = true := hc
        rw [if_neg hc2] at h
        rw [if_neg hc]
        exact ih st r h
    · rw [if_neg hb] at h
      rw [if_neg hb]
      exact ih st r h

/-! Multiset bookkeeping for C1: each blob item of the added list
    contributes its pair to exactly one of `compute`/`add_label`, and each
    blob item of the removed list to at most one of
    `delete`/`remove_label`. -/

theorem blobPairs_cons_blob {i : Descr} (hb : i.isBlob = true) (rest : List Descr) :
    blobPairs (i :: rest) = (i.path, hashString i.hash) :: blobPairs rest := by
  simp only [blobPairs, List.filter_cons_of_pos hb, List.map_cons]

theorem blobPairs_cons_nonblob {i : Descr} (hb : ¬i.isBlob = true) (rest : List Descr) :
    blobPairs (i :: rest) = blobPairs rest := by
  simp only [blobPairs, List.filter_cons_of_neg (by simpa using hb)]

theorem processAdd_pairs_perm (tag : TagR) :
    ∀ (items : List Descr) (st : CacheSt),
      ((processAdd tag st items).2.1 ++ (processAdd tag st items).2.2).Perm
        (blobPairs items) := by
  intro items
  induction items with
  | nil => intro st; simp [processAdd, blobPairs]
  | cons i rest ih =>
    intro st
    by_cases hb : i.isBlob = true
    · rw [blobPairs_cons_blob hb]
      by_cases hc : IndexCache.globalContains st i.hash = true
      · simp only [processAdd, if_pos hb, if_pos hc]
        refine List.Perm.trans List.perm_middle ?_
        exact (ih (IndexCache.addGlobal tag st i)).cons (i.path, hashString i.hash)
      · simp only [processAdd, if_pos hb, if_neg hc, List.cons_append]
        exact (ih (IndexCache.addGlobal tag st i)).cons (i.path, hashString i.hash)
    · rw [blobPairs_cons_nonblob hb]
      simp only [processAdd, if_neg hb]
      exact ih st

theorem processRemove_pairs_subperm (tag : TagR) :
    ∀ (items : List Descr) (st : CacheSt)
      (r : CacheSt × List (String × String) × List (String × String)),
      processRemove tag st items = some r →
      (r.2.1 ++ r.2.2).Subperm (blobPairs items) := by
  intro items
  induction items with
  | nil =>
    intro st r h
    simp only [processRemove, Option.some_inj] at h
    subst h
    simp [blobPairs]
  | cons i rest ih =>
    intro st r h
    simp only [processRemove] at h
    by_cases hb : i.isBlob = true
    · rw [if_pos hb] at h
      rw [blobPairs_cons_blob hb]
      by_cases hc : IndexCache.globalContains st i.hash = true
      · rw [if_pos hc] at h
        by_cases hlen : (IndexCache.getRevTags st i.hash).length ≤ 1
        · rw [if_pos hlen] at h
          cases hrec : processRemove tag (IndexCache.globalRemove st i) rest with
          | none => rw [hrec] at h; cases h
          | some r2 =>
            rw [hrec] at h
            simp only [Option.bind_eq_bind, Option.some_bind, Option.some_inj] at h
            subst h
            simp only [List.cons_append]
            exact (List.subperm_cons (i.path, hashString i.hash)).mpr
              (ih (IndexCache.globalRemove st i) r2 hrec)
        · rw [if_neg hlen] at h
          cases hloc : IndexCache.localRemove tag st i with
          | none => rw [hloc] at h; cases h
          | some st3 =>
            rw [hloc] at h
            simp only [Option.bind_eq_bind, Option.some_bind] at h
            cases hrec : processRemove tag st3 rest with
            | none => rw [hrec] at h; cases h
            | some r2 =>
              rw [hrec] at h
              simp only [Option.some_bind, Option.some_inj] at h
              subst h
              refine List.Subperm.trans (List.Perm.subperm List.perm_middle) ?_
              exact (List.subperm_cons (i.path, hashString i.hash)).mpr
                (ih st3 r2 hrec)
      · rw [if_neg hc] at h
        exact (ih st r h).trans
          ((List.sublist_cons_self (i.path, hashString i.hash) (blobPairs rest)).subperm)
    · rw [if_neg hb] at h
      rw [blobPairs_cons_nonblob hb]
      exact ih st r h

/-! ## Claim theorems -/

/-- C7: DiskSet behaves as the spec's swap-delete set. From an empty file,
    `add(A)` then `add(B)` leaves `A ‖ B` (two 20-byte slots); `remove(A)`
    copies the last slot over A's slot and truncates, leaving exactly `B`;
    a further `add(C)` leaves `B ‖ C`; afterwards `contains(A)` is false and
    `contains(B)`, `contains(C)` are true; and adding an already-present
    item leaves the file unchanged. -/
theorem C7_diskset_swap_delete :
    (DiskSet.addItem (DiskSet.addItem [] itemA) itemB = [itemA, itemB]
      ∧ DiskSet.removeItem [itemA, itemB] itemA = [itemB]
      ∧ DiskSet.addItem [itemB] itemC = [itemB, itemC]
      ∧ DiskSet.containsItem [itemB, itemC] itemA = false
      ∧ DiskSet.containsItem [itemB, itemC] itemB = true
      ∧ DiskSet.containsItem [itemB, itemC] itemC = true)
    ∧ ∀ (l : List ObjectHash) (x : ObjectHash),
        DiskSet.containsItem l x = true → DiskSet.addItem l x = l := by
  refine ⟨⟨by decide, by decide, by decide, by decide, by decide, by decide⟩, ?_⟩
  intro l x h
  simp [DiskSet.addItem, h]

/-- Witness for C7: adding an item already present (here `A` into `[A]`)
    leaves the file unchanged. -/
theorem C7_witness : DiskSet.addItem [itemA] itemA = [itemA] :=
  C7_diskset_swap_delete.2 [itemA] itemA (by decide)

/-- C4 (behavior at the failing inputs): `Tree::load(..).unwrap_or_default()`
    yields the default tree for a missing file (`File::open` returns `Err`),
    but an empty file panics (`lines.next().unwrap()` on no lines) and an
    unparsable first line panics (`serde_json::from_str(..).unwrap()`) —
    `none` here — instead of defaulting as the claim states. -/
theorem C4_load_panics_instead_of_default :
    loadTree none = some defaultTree
    ∧ loadTree (some []) = none
    ∧ loadTree (some [none]) = none :=
  ⟨rfl, rfl, rfl⟩

/-- C2 (behavior at the failing input): removing the unmatched old child
    `d` (a two-node subtree: the tree `d` and its blob `d/f`) emits its
    pre-order description list once per node — four entries, each node
    twice — where the claim predicts the flatten of the subtree
    (`all_obj_descriptions`: exactly one entry per node, in pre-order).
    Conjunct 1 runs the full diff the way `sync` calls it; conjuncts 2-4
    show the claim's predicted value at this input, that `diff_children`'s
    actual output differs from it, and what that output is; conjuncts 5-6
    generalize: for every unmatched old tree child with an n-entry
    pre-order flatten, the removal loop emits n² entries, each node's
    description exactly n times. -/
theorem C2_removed_subtree_duplicated :
    diffTrees oldEx newEx =
      ([newEx.descr], [oldEx.descr, dEx.descr, bEx.descr, dEx.descr, bEx.descr])
    ∧ dEx.allDescr = [dEx.descr, bEx.descr]
    ∧ diffChildrenTop [dEx] [] ≠ ([], dEx.allDescr)
    ∧ diffChildrenTop [dEx] [] = ([], [dEx.descr, bEx.descr, dEx.descr, bEx.descr])
    ∧ (∀ (k : String) (pr : Option ObjectHash) (cs : List Obj) (h : ObjectHash)
        (p : String),
        (leftoverRemove [(k, Obj.tree pr cs h p)]).length
          = (Obj.allDescr (Obj.tree pr cs h p)).length
            * (Obj.allDescr (Obj.tree pr cs h p)).length)
    ∧ (∀ (k : String) (pr : Option ObjectHash) (cs : List Obj) (h : ObjectHash)
        (p : String) (x : Descr),
        (leftoverRemove [(k, Obj.tree pr cs h p)]).count x
          = (Obj.allDescr (Obj.tree pr cs h p)).length
            * (Obj.allDescr (Obj.tree pr cs h p)).count x) := by
  refine ⟨by decide, by decide, by decide, by decide, ?_, ?_⟩
  · intro k pr cs h p
    simp only [leftoverRemove, List.flatMap_cons, List.flatMap_nil, List.append_nil]
    exact flatMap_const_length _ _
  · intro k pr cs h p x
    simp only [leftoverRemove, List.flatMap_cons, List.flatMap_nil, List.append_nil]
    exact flatMap_const_count _ _ x

/-- C5 (behavior at the failing input): with `oldEx` holding the two-node
    subtree `d` and `newEx` empty, `removed(oldEx, newEx)` has five entries
    (root plus the subtree emitted twice) while `added(newEx, oldEx)` has
    three (root plus the subtree once), so the two are not equal as
    multisets. -/
theorem C5_swap_symmetry_fails :
    (diffTrees oldEx newEx).2.length = 5
    ∧ (diffTrees newEx oldEx).1.length = 3
    ∧ ¬ List.Perm (diffTrees oldEx newEx).2 (diffTrees newEx oldEx).1 := by
  refine ⟨by decide, by decide, ?_⟩
  intro h
  have hlen := h.length_eq
  rw [show (diffTrees oldEx newEx).2.length = 5 from by decide,
      show (diffTrees newEx oldEx).1.length = 3 from by decide] at hlen
  omega

/-- Counterexample to C1's disjointness conjunct: deleting the directory
    `d` (whose two-node subtree is emitted twice by the diff bug) while the
    blob's hash is rev-tagged by this tag and one other tag makes the first
    occurrence take the `remove_label` branch (dropping this tag's label)
    and the second occurrence take the `delete` branch (the list length is
    now 1), so the same `(path, hex)` pair lands in both `delete` and
    `remove_label`. -/
theorem C1_counterexample :
    (syncFromTrees tagEx oldEx newEx stEx).map
        (fun r => (r.1.delete, r.1.removeLabel)) =
      some ([("d/f", hashString hbEx)], [("d/f", hashString hbEx)])
    ∧ ("d/f", hashString hbEx) ∈
        ((syncFromTrees tagEx oldEx newEx stEx).map (fun r => r.1.delete)).getD []
    ∧ ("d/f", hashString hbEx) ∈
        ((syncFromTrees tagEx oldEx newEx stEx).map (fun r => r.1.removeLabel)).getD [] := by
  exact ⟨by decide, by decide, by decide⟩

/-- C1 (amended): whenever a sync run returns (no `local_remove` panic),
    its four buckets and all cache/rev_tags updates are exactly those of the
    classifier transcribed from the spec's words (`SpecModel.syncSpec`:
    a globally known added blob gains a label and is added to both caches
    and rev_tags, an unknown one is computed and added; a removed blob with
    at most one rev_tag is deleted and globally removed, with more it loses
    this tag's label and is locally removed); each output list holds only
    `(path, hex)` pairs of blob descriptions of the corresponding diff list
    (trees never appear); and when those blob pairs are duplicate-free
    within and across the diff's added and removed lists, the four output
    lists are pairwise disjoint. -/
theorem C1_sync_classification (tag : TagR) (old new : TreeS) (st : CacheSt)
    (out : SyncOut) (st2 : CacheSt)
    (hrun : syncFromTrees tag old new st = some (out, st2)) :
    SpecModel.syncSpec tag old new st = (out, st2)
    ∧ (∀ p ∈ out.compute, p ∈ blobPairs (diffTrees old new).1)
    ∧ (∀ p ∈ out.addLabel, p ∈ blobPairs (diffTrees old new).1)
    ∧ (∀ p ∈ out.delete, p ∈ blobPairs (diffTrees old new).2)
    ∧ (∀ p ∈ out.removeLabel, p ∈ blobPairs (diffTrees old new).2)
    ∧ ((blobPairs (diffTrees old new).1 ++ blobPairs (diffTrees old new).2).Nodup →
        out.compute.Disjoint out.addLabel
        ∧ out.delete.Disjoint out.removeLabel
        ∧ out.compute.Disjoint out.delete
        ∧ out.compute.Disjoint out.removeLabel
        ∧ out.addLabel.Disjoint out.delete
        ∧ out.addLabel.Disjoint out.removeLabel) := by
  simp only [syncFromTrees] at hrun
  cases hrem : processRemove tag (processAdd tag st (diffTrees old new).1).1
      (diffTrees old new).2 with
  | none => rw [hrem] at hrun; cases hrun
  | some r =>
    rw [hrem] at hrun
    simp only [Option.map_some', Option.some_inj] at hrun
    obtain ⟨hout, hst2⟩ := Prod.mk.injEq .. |>.mp hrun
    subst hout
    subst hst2
    have hperm := processAdd_pairs_perm tag (diffTrees old new).1 st
    have hsub := processRemove_pairs_subperm tag (diffTrees old new).2
      (processAdd tag st (diffTrees old new).1).1 r hrem
    have hmemAdd : ∀ p, p ∈ (processAdd tag st (diffTrees old new).1).2.1
        ∨ p ∈ (processAdd tag st (diffTrees old new).1).2.2 →
        p ∈ blobPairs (diffTrees old new).1 := by
      intro p hp
      exact hperm.mem_iff.mp (List.mem_append.mpr hp)
    have hmemRem : ∀ p, p ∈ r.2.1 ∨ p ∈ r.2.2 →
        p ∈ blobPairs (diffTrees old new).2 := by
      intro p hp
      exact hsub.subset (List.mem_append.mpr hp)
    refine ⟨?_, ?_, ?_, ?_, ?_, ?_⟩
    · simp only [SpecModel.syncSpec]
      rw [← processAdd_eq_classifyAdd tag,
          processRemove_eq_classifyRemove tag _ _ r hrem]
    · intro p hp; exact hmemAdd p (Or.inl hp)
    · intro p hp; exact hmemAdd p (Or.inr hp)
    · intro p hp; exact hmemRem p (Or.inl hp)
    · intro p hp; exact hmemRem p (Or.inr hp)
    · intro hnd
      obtain ⟨nd1, nd2, disj12⟩ := List.nodup_append.mp hnd
      have nda : ((processAdd tag st (diffTrees old new).1).2.1 ++
          (processAdd tag st (diffTrees old new).1).2.2).Nodup :=
        hperm.symm.nodup nd1
      obtain ⟨_, _, disjA⟩ := List.nodup_append.mp nda
      have ndr : (r.2.1 ++ r.2.2).Nodup := by
        obtain ⟨y, hyp, hys⟩ := hsub
        exact hyp.nodup (hys.nodup nd2)
      obtain ⟨_, _, disjR⟩ := List.nodup_append.mp ndr
      refine ⟨disjA, disjR, ?_, ?_, ?_, ?_⟩
      · intro p hp hq
        exact disj12 (hmemAdd p (Or.inl hp)) (hmemRem p (Or.inl hq))
      · intro p hp hq
        exact disj12 (hmemAdd p (Or.inl hp)) (hmemRem p (Or.inr hq))
      · intro p hp hq
        exact disj12 (hmemAdd p (Or.inr hp)) (hmemRem p (Or.inl hq))
      · intro p hp hq
        exact disj12 (hmemAdd p (Or.inr hp)) (hmemRem p (Or.inr hq))

/-- Witness for C1 (amended): a concrete run — an empty old tree, a new
    tree with a single blob `f`, an empty cache — returns, matches the
    spec's classifier (the blob is computed, both caches and rev_tags gain
    it), and its first two buckets are disjoint. -/
theorem C1_witness :
    SpecModel.syncSpec tagEx defaultTree addTreeEx stEmpty
      = (⟨[("f", hashString (List.replicate 20 9))], [], [], []⟩,
         ⟨[List.replicate 20 9], [List.replicate 20 9],
          [(hashString (List.replicate 20 9), [tagEx.tagStr])]⟩)
    ∧ List.Disjoint
        ([("f", hashString (List.replicate 20 9))] : List (String × String)) [] := by
  have h := C1_sync_classification tagEx defaultTree addTreeEx stEmpty
    ⟨[("f", hashString (List.replicate 20 9))], [], [], []⟩
    ⟨[List.replicate 20 9], [List.replicate 20 9],
     [(hashString (List.replicate 20 9), [tagEx.tagStr])]⟩ (by decide)
  exact ⟨h.1, (h.2.2.2.2.2 (by decide)).1⟩

/-- C9: `add_global` appends the tag string to the rev_tags list of the
    item's hash with no duplicate check, so two adds of the same hash from
    the same tag (as when one sync adds two files with identical content)
    leave that tag string in the stored list twice: the lists are lists,
    not sets. -/
theorem C9_rev_tags_double_append (tag : TagR) (st : CacheSt) (item : Descr) :
    IndexCache.getRevTags
        (IndexCache.addGlobal tag (IndexCache.addGlobal tag st item) item) item.hash
      = IndexCache.getRevTags st item.hash ++ [tag.tagStr, tag.tagStr] := by
  rw [getRevTags_addGlobal, getRevTags_addGlobal, List.append_assoc]
  rfl

/-- C10: with unique rev_tags keys (a JSON object has no duplicate keys),
    `local_remove` is safe exactly under the claim's precondition. When the
    key is present and the current tag string occurs in its list, it
    removes one occurrence (the count drops by one) and keeps the key
    exactly when the list had more than one element, returning normally;
    when the key is absent it returns normally with rev_tags unchanged; and
    when the key is present but the tag string is absent, the
    `position(..).unwrap()` panics (`none`). -/
theorem C10_local_remove_safety (tag : TagR) (st : CacheSt) (d : Descr)
    (hkeys : (st.revTags.map Prod.fst).Nodup) :
    (∀ tags, rtLookup st.revTags (hashString d.hash) = some tags →
       tag.tagStr ∈ tags →
       ∃ st2, IndexCache.localRemove tag st d = some st2
         ∧ (IndexCache.getRevTags st2 d.hash).count tag.tagStr
             = (IndexCache.getRevTags st d.hash).count tag.tagStr - 1
         ∧ ((rtLookup st2.revTags (hashString d.hash)).isSome ↔ tags.length ≠ 1)
         ∧ st2.globalCache = st.globalCache
         ∧ st2.tagCache = DiskSet.removeItem st.tagCache d.hash)
    ∧ (rtLookup st.revTags (hashString d.hash) = none →
       IndexCache.localRemove tag st d =
         some { st with tagCache := DiskSet.removeItem st.tagCache d.hash })
    ∧ (∀ tags, rtLookup st.revTags (hashString d.hash) = some tags →
       tag.tagStr ∉ tags → IndexCache.localRemove tag st d = none) := by
  refine ⟨?_, ?_, ?_⟩
  · intro tags hl hmem
    have hne : tags.findIdx? (fun x => x == tag.tagStr) ≠ none := by
      intro hnone
      rw [List.findIdx?_eq_none_iff] at hnone
      simpa using hnone tag.tagStr hmem
    obtain ⟨i, hi⟩ := Option.ne_none_iff_exists'.mp hne
    have herase : tags.eraseIdx i = tags.erase tag.tagStr :=
      eraseIdx_findIdx_eq_erase tag.tagStr tags i hi
    have hlen : 1 ≤ tags.length := List.length_pos.mpr (List.ne_nil_of_mem hmem)
    have hlenerase : (tags.erase tag.tagStr).length = tags.length - 1 :=
      List.length_erase_of_mem hmem
    have hcnt : (tags.erase tag.tagStr).count tag.tagStr = tags.count tag.tagStr - 1 :=
      List.count_erase_self tag.tagStr tags
    by_cases hemp : (tags.eraseIdx i).isEmpty
    · have hempeq : tags.erase tag.tagStr = [] := by
        rw [← herase, ← List.isEmpty_iff]; exact hemp
      refine ⟨⟨st.globalCache, DiskSet.removeItem st.tagCache d.hash,
               rtRemoveKey st.revTags (hashString d.hash)⟩,
              by simp only [IndexCache.localRemove, hl, hi, if_pos hemp], ?_, ?_, rfl, rfl⟩
      · have hnone := rtLookup_removeKey_self st.revTags (hashString d.hash) hkeys
        simp only [IndexCache.getRevTags, hnone, hl, Option.getD_none, Option.getD_some]
        rw [hempeq] at hcnt
        simpa using hcnt
      · have hnone := rtLookup_removeKey_self st.revTags (hashString d.hash) hkeys
        simp only [hnone, Option.isSome_none, Bool.false_eq_true, false_iff, ne_eq, not_not]
        rw [hempeq] at hlenerase
        simp only [List.length_nil] at hlenerase
        omega
    · have hempne : tags.erase tag.tagStr ≠ [] := by
        rw [← herase]
        intro h0
        rw [← List.isEmpty_iff] at h0
        exact hemp h0
      have hsome := rtLookup_setFirst_self st.revTags (hashString d.hash)
        (tags.eraseIdx i) (by simp [hl])
      refine ⟨⟨st.globalCache, DiskSet.removeItem st.tagCache d.hash,
               rtSetFirst st.revTags (hashString d.hash) (tags.eraseIdx i)⟩,
              by simp only [IndexCache.localRemove, hl, hi, if_neg hemp], ?_, ?_, rfl, rfl⟩
      · simp only [IndexCache.getRevTags, hsome, hl, Option.getD_some]
        rw [herase]
        exact hcnt
      · simp only [hsome, Option.isSome_some, true_iff, ne_eq]
        have hpos : 0 < (tags.erase tag.tagStr).length :=
          List.length_pos.mpr hempne
        omega
  · intro h
    simp [IndexCache.localRemove, h]
  · intro tags hl hnmem
    have hnone : tags.findIdx? (fun x => x == tag.tagStr) = none := by
      rw [List.findIdx?_eq_none_iff]
      intro x hx
      simp only [beq_eq_false_iff_ne, ne_eq]
      intro hxe
      exact hnmem (hxe ▸ hx)
    simp [IndexCache.localRemove, hl, hnone]

/-- C8: every tree node of a tree built by `compute_tree_for_dir` (over any
    digest function, any walk) has
    `hash = dg ("tree" bytes ++ concatenation of the children's 20-byte
    hashes, in child order)` — `hashGoodObj` states this for the root and,
    recursively, every tree node, and the message visibly contains no child
    names and no count framing. The second conjunct identifies the source's
    incremental `tree_hash` with that framing-free message for every child
    list, and the third specializes it to a childless tree:
    `hash = SHA1("tree")`. -/
theorem C8_tree_hash_invariant (dg : List Byte → ObjectHash)
    (dirComps : List String) (rootPathStr : String) (entries : List Entry)
    (t : TreeS)
    (hbuild : computeTreeForDir dg dirComps rootPathStr entries = some t) :
    hashGoodObj dg t.toObj = true
    ∧ (∀ hs, treeHashCode dg hs = dg (strBytes "tree" ++ hs.flatten))
    ∧ treeHashCode dg [] = dg (strBytes "tree") := by
  refine ⟨?_, treeHashCode_eq_spec dg, by rw [treeHashCode_eq_spec]; simp⟩
  simp only [computeTreeForDir] at hbuild
  cases hf : List.foldlM (buildStep dg) ([⟨[], rootPathStr⟩], dirComps) entries with
  | none => rw [hf] at hbuild; cases hbuild
  | some st1 =>
    rw [hf] at hbuild
    simp only [Option.bind_eq_bind, Option.some_bind] at hbuild
    cases hc : collapse dg st1.1.length st1.1 with
    | none => rw [hc] at hbuild; cases hbuild
    | some rootPre =>
      rw [hc] at hbuild
      simp only [Option.bind_eq_bind, Option.some_bind, Option.some_inj] at hbuild
      have hinit : ∀ pt ∈ ([(⟨[], rootPathStr⟩ : PreTree)], dirComps).1,
          hashGoodList dg pt.children = true := by
        intro pt hpt
        rcases List.mem_cons.mp hpt with h | h
        · subst h; rfl
        · simp at h
      have hgood1 := foldlM_buildStep_good dg entries _ st1 hinit hf
      have hgoodRoot := collapse_good dg st1.1.length st1.1 rootPre hgood1 hc
      subst hbuild
      simp only [TreeS.setChildrensParent, PreTree.finalize, TreeS.toObj, hashGoodObj,
        setParentList_map_hashF, hashGoodList_setParentList, treeHashCode_eq_spec,
        decide_eq_true_eq, hgoodRoot, Bool.and_true]

/-- Witness for C8: a concrete walk (directory `r/a` holding one file
    `r/a/f`) builds successfully and every tree node of the result carries
    the framing-free tree hash. -/
theorem C8_witness :
    hashGoodObj dgEx
      ((computeTreeForDir dgEx ["r"] "r" entsEx).getD defaultTree).toObj = true :=
  (C8_tree_hash_invariant dgEx ["r"] "r" entsEx
    ((computeTreeForDir dgEx ["r"] "r" entsEx).getD defaultTree) (by rfl)).1

/-- C6: persisting any tree as JSONL and loading that file yields the same
    tree — same parent, hash and path at every node, children in the same
    order, blobs loaded as blobs (their line has no `children`) and trees
    as trees. -/
theorem C6_persist_load_roundtrip (t : TreeS) :
    loadTree (some ((TreeS.serialize t).map some)) = some t :=
  loadTree_roundtrip t

/-- C3: when the directory's contents do not change between two sync calls
    on the same tag, the walker (being deterministic over identical on-disk
    state) rebuilds the very tree `t` the first call persisted, the second
    call loads that persisted file back as `t`, the diff of `t` against
    itself is empty because the root hashes are equal, and so all four
    output lists of the second call are empty and the caches are untouched,
    for every tag and every cache state. -/
theorem C3_second_sync_empty (tag : TagR) (t : TreeS) (st : CacheSt) :
    syncModel tag (some ((TreeS.serialize t).map some)) t st
      = some (⟨[], [], [], []⟩, st) := by
  simp only [syncModel, loadTree_roundtrip, Option.some_bind]
  simp only [syncFromTrees, diffTrees, if_pos rfl]
  simp [processAdd, processRemove]

/-- Witness for C10: at a state whose key holds exactly this tag's string
    the call returns normally; at a state whose key holds a foreign string
    only, it panics. -/
theorem C10_witness :
    (∃ st2, IndexCache.localRemove tagTen stTenA dTen = some st2)
    ∧ IndexCache.localRemove tagTen stTenB dTen = none := by
  constructor
  · obtain ⟨st2, h1, _⟩ :=
      (C10_local_remove_safety tagTen stTenA dTen (by decide)).1
        [tagTen.tagStr] (by decide) (by decide)
    exact ⟨st2, h1⟩
  · exact (C10_local_remove_safety tagTen stTenB dTen (by decide)).2.2
      ["zzz"] (by decide) (by decide)

end ContinueSync
